import Mathlib

/-!
Verification of the admin draft-order / batch-edit reconciliation subsystem.

The definitions below are shallow embeddings of the TypeScript sources:
  * `apps/web/src/features/admin/lib/ordering.ts`
  * `apps/web/src/features/admin/components/AdminWorkspaceShell.tsx`

JavaScript numbers are modelled by `JsNum` (a finite integer, NaN, or a signed
infinity); the entity records that the ordering utilities consume are modelled
by `OrderedRecord`, whose `rest` field stands for all fields other than
`order`.  `Array.prototype.sort` is required by the ECMAScript specification to
be stable, and for a consistent comparator its output is exactly the stable
sort by the induced total preorder, which `List.mergeSort` computes.
-/

/-- Model of a JavaScript number as produced by `Number(...)`: either a finite
integer value, `NaN`, or one of the two infinities.  (The source only ever
feeds integral `order` values through these utilities, so finite values are
modelled by `Int`.) -/
inductive JsNum where
  | num (v : Int)
  | nan
  | posInf
  | negInf
deriving DecidableEq

/-- Model of `Number(x ?? 0)` applied to an optional numeric field: a missing
value becomes `0`, a present number is returned unchanged. -/
def toNumber (o : Option JsNum) : JsNum := o.getD (JsNum.num 0)

/-- Model of `Number.isFinite`. -/
def JsNum.finiteCheck : JsNum → Bool
  | .num _ => true
  | _ => false

/-- Model of a record with an optional `order` field (`T extends { order?: unknown }`
in `ordering.ts`, `AdminEntity` in the shell).  `rest` stands for the record's
remaining fields, which the ordering utilities never inspect. -/
structure OrderedRecord where
  order : Option JsNum
  rest : String := ""
deriving DecidableEq

/-- The effective sort key used by `ordering.ts`:
`Number(a.order ?? 0)` guarded by `Number.isFinite`, non-finite values
replaced by `0`. -/
def effectiveOrder (o : Option JsNum) : Int :=
  match toNumber o with
  | .num v => v
  | _ => 0

/-- `sortByOrder` from `ordering.ts` (lines 1-9): a stable sort ascending by
the effective order key (missing / non-finite values treated as `0`). -/
def sortByOrder (items : List OrderedRecord) : List OrderedRecord :=
  items.mergeSort fun a b =>
    decide (effectiveOrder a.order ≤ effectiveOrder b.order)

/-- JavaScript subtraction on `JsNum` (`left - right` in the comparators). -/
def jsSub : JsNum → JsNum → JsNum
  | .nan, _ => .nan
  | _, .nan => .nan
  | .num a, .num b => .num (a - b)
  | .posInf, .posInf => .nan
  | .posInf, _ => .posInf
  | .negInf, .negInf => .nan
  | .negInf, _ => .negInf
  | .num _, .posInf => .negInf
  | .num _, .negInf => .posInf

/-- The comparator of the shell's local `sortByOrder`
(`AdminWorkspaceShell.tsx` lines 421-427), turned into the "comes first or
equal" Boolean that a stable sort consumes: the comparator value
`Number(a.order ?? 0) - Number(b.order ?? 0)` keeps `a` before `b` iff it is
`<= 0` or `NaN` (the ECMAScript sort treats a `NaN` comparator result as
`+0`).  Note there is no `Number.isFinite` guard here, unlike `ordering.ts`. -/
def shellCompareLe (a b : OrderedRecord) : Bool :=
  match jsSub (toNumber a.order) (toNumber b.order) with
  | .num v => decide (v ≤ 0)
  | .nan => true
  | .posInf => false
  | .negInf => true

/-- The shell's local `sortByOrder` (`AdminWorkspaceShell.tsx` lines 421-427).
For order values free of `NaN` the comparator is consistent, so the stable
merge sort is exactly the behaviour the ECMAScript specification mandates. -/
def shellSortByOrder (items : List OrderedRecord) : List OrderedRecord :=
  items.mergeSort shellCompareLe

/-- `areSameIdOrder` (identical in `ordering.ts` lines 11-23 and
`AdminWorkspaceShell.tsx` lines 429-441): equal length and identical id at
every index. -/
def areSameIdOrder (left right : List String) : Bool :=
  left.length == right.length && (left.zip right).all fun p => p.1 == p.2

/-- The non-null branch of `reconcileDraftOrder`: keep the draft ids still
present in canonical (`canonicalSet.has`), then append every canonical id not
already in the kept list.  The membership set for the append loop
(`filteredSet`) is built once from `filtered` before the loop and never
updated, which this embedding mirrors by testing membership in the original
`filtered` list. -/
def reconcileList (ds cs : List String) : List String :=
  let filtered := ds.filter fun id => decide (id ∈ cs)
  filtered ++ cs.filter fun id => decide (id ∉ filtered)

/-- `reconcileDraftOrder` (identical in `ordering.ts` lines 25-41 and
`AdminWorkspaceShell.tsx` lines 443-459): `null` draft stays `null`, otherwise
the draft is filtered to canonical ids and missing canonical ids are
appended. -/
def reconcileDraftOrder (draftIds : Option (List String)) (canonicalIds : List String) :
    Option (List String) :=
  match draftIds with
  | none => none
  | some ds => some (reconcileList ds canonicalIds)

/-- The reducer callback of `getNextOrder` in `ordering.ts` (lines 44-47):
`Number.isFinite(value) && value > max ? value : max` with
`value = Number(item.order ?? 0)`. -/
def getNextOrderStep (mx : Int) (item : OrderedRecord) : Int :=
  match toNumber item.order with
  | .num v => if v > mx then v else mx
  | _ => mx

/-- `getNextOrder` from `ordering.ts` (lines 43-50): a `reduce` of
`getNextOrderStep` that starts at `0`, then adds `1`. -/
def getNextOrder (items : List OrderedRecord) : Int :=
  items.foldl getNextOrderStep 0 + 1

/-- The shell's local `getNextOrder` (`AdminWorkspaceShell.tsx` lines 461-474):
`1` for an empty collection, else `Math.max` over the effective order values
(non-finite replaced by `0`) plus `1`. -/
def shellGetNextOrder (items : List OrderedRecord) : Int :=
  if items.isEmpty then 1
  else
    match items.map fun item => effectiveOrder item.order with
    | [] => 1
    | v :: vs => vs.foldl max v + 1

/-- The next-order computation exactly as the specification words it:
`1` for an empty collection, else `max(order over items) + 1` with missing or
non-finite order values treated as `0`. -/
def nextOrderSpec (items : List OrderedRecord) : Int :=
  match items.map fun item => effectiveOrder item.order with
  | [] => 1
  | v :: vs => vs.foldl max v + 1

/-!
Draft store: reconciliation effect and change detection
(`AdminWorkspaceShell.tsx`).  A draft order is `Option (List String)` (`null`
modelled by `none`); the draft current-role id is `Option (Option String)`
(outer `none` is the `undefined` "no pending change" sentinel, inner `none` is
an explicit `null` selection).
-/

/-- The updater passed to `setProjectDraftOrderIds` by the reconciliation
effect (`AdminWorkspaceShell.tsx` lines 2555-2566): reconcile the current
draft against canonical; keep the current reference if it already equals the
reconciled list; otherwise collapse to `null` when the reconciled list equals
canonical order, else store the reconciled list. -/
def setProjectDraftOrderIdsReconcile (current : Option (List String))
    (canonicalProjectOrderIds : List String) : Option (List String) :=
  match reconcileDraftOrder current canonicalProjectOrderIds with
  | none => none
  | some reconciled =>
    if (match current with
        | some cur => areSameIdOrder cur reconciled
        | none => false) then
      current
    else if areSameIdOrder reconciled canonicalProjectOrderIds then none
    else some reconciled

/-- `hasProjectOrderChanges` (`AdminWorkspaceShell.tsx` lines 2614-2619):
a non-null draft order that differs element-wise from canonical order. -/
def hasProjectOrderChanges (projectDraftOrderIds : Option (List String))
    (canonicalProjectOrderIds : List String) : Bool :=
  match projectDraftOrderIds with
  | none => false
  | some ds => !areSameIdOrder ds canonicalProjectOrderIds

/-- `hasExperienceOrderChanges` (`AdminWorkspaceShell.tsx` lines 2568-2573). -/
def hasExperienceOrderChanges (experienceDraftOrderIds : Option (List String))
    (canonicalExperienceOrderIds : List String) : Bool :=
  match experienceDraftOrderIds with
  | none => false
  | some ds => !areSameIdOrder ds canonicalExperienceOrderIds

/-- `hasExperienceCurrentRoleChanges` (`AdminWorkspaceShell.tsx` lines
2575-2580): the draft current-role sentinel is set and differs from the
canonical current id. -/
def hasExperienceCurrentRoleChanges (experienceDraftCurrentRoleId : Option (Option String))
    (canonicalCurrentExperienceId : Option String) : Bool :=
  match experienceDraftCurrentRoleId with
  | none => false
  | some draftCur => decide (draftCur ≠ canonicalCurrentExperienceId)

/-!
Technologies batch editing (`AdminWorkspaceShell.tsx`): draft rows, change
detection, and the batch commit pipeline `saveTechBatch`.
-/

/-- `TechDraftItem` (`AdminWorkspaceShell.tsx` lines 241-252).  The optional
Boolean tags default to `false`, matching an absent (`undefined`, falsy)
property. -/
structure TechDraftItem where
  _id : String
  name : String
  category : String
  description : String
  iconName : String
  iconUrl : String
  order : Int
  _isNew : Bool := false
  _isDeleted : Bool := false
  _isExpanded : Bool := false
deriving DecidableEq

/-- Lookup in `new Map(canonical.map((item) => [item._id, item]))`: a later
entry with the same key overwrites an earlier one, so the lookup returns the
last canonical item carrying the id. -/
def canonicalMapGet (canonical : List TechDraftItem) (id : String) : Option TechDraftItem :=
  canonical.reverse.find? fun item => item._id == id

/-- The tracked-field comparison used both by `hasTechChanges` (lines
2674-2681) and by the update diff of `saveTechBatch` (lines 2787-2794):
some of name, category, description, iconName, iconUrl, order differs. -/
def techFieldsDiffer (item orig : TechDraftItem) : Bool :=
  item.name != orig.name || item.category != orig.category ||
  item.description != orig.description || item.iconName != orig.iconName ||
  item.iconUrl != orig.iconUrl || item.order != orig.order

/-- `hasTechChanges` (`AdminWorkspaceShell.tsx` lines 2664-2685): `false` for
a null draft; otherwise true iff some row is new or deleted, or some
remaining row has no canonical counterpart or differs from it on a tracked
field. -/
def hasTechChanges (canonicalTechItems : List TechDraftItem)
    (techDraftItems : Option (List TechDraftItem)) : Bool :=
  match techDraftItems with
  | none => false
  | some draft =>
    (draft.any fun item => item._isNew || item._isDeleted) ||
    (draft.any fun item =>
      !(item._isNew || item._isDeleted) &&
      (match canonicalMapGet canonicalTechItems item._id with
       | none => true
       | some orig => techFieldsDiffer item orig))

/-- Model of `String.prototype.trim`: strip leading and trailing whitespace.
(Defined structurally over the character list so that concrete instances
evaluate inside the kernel.) -/
def jsTrim (s : String) : String :=
  ⟨((s.data.dropWhile Char.isWhitespace).reverse.dropWhile Char.isWhitespace).reverse⟩

/-- Model of the JavaScript idiom `s || undefined`: the empty string is falsy
and becomes `undefined`. -/
def strOrUndef (s : String) : Option String :=
  if s == "" then none else some s

/-- Model of `s.trim() || undefined`. -/
def trimOrUndef (s : String) : Option String :=
  if jsTrim s == "" then none else some (jsTrim s)

/-- The create request row built by `saveTechBatch` (lines 2772-2781). -/
structure TechCreatePayload where
  name : String
  category : String
  description : Option String
  iconName : Option String
  iconUrl : Option String
  order : Int
deriving DecidableEq

/-- The update request row built by `saveTechBatch` (lines 2796-2804). -/
structure TechUpdatePayload where
  id : String
  name : String
  category : String
  description : Option String
  iconName : Option String
  iconUrl : Option String
  order : Int
deriving DecidableEq

/-- Field mapping of a draft row into a create request row. -/
def techCreatePayload (item : TechDraftItem) : TechCreatePayload :=
  { name := jsTrim item.name
    category := item.category
    description := trimOrUndef item.description
    iconName := strOrUndef item.iconName
    iconUrl := strOrUndef item.iconUrl
    order := item.order }

/-- Field mapping of a draft row into an update request row. -/
def techUpdatePayload (item : TechDraftItem) : TechUpdatePayload :=
  { id := item._id
    name := jsTrim item.name
    category := item.category
    description := trimOrUndef item.description
    iconName := strOrUndef item.iconName
    iconUrl := strOrUndef item.iconUrl
    order := item.order }

/-- The rows selected into `creates` by `saveTechBatch` (lines 2772-2773):
`_isNew` and not `_isDeleted`. -/
def saveTechCreatesRows (draft : List TechDraftItem) : List TechDraftItem :=
  draft.filter fun item => item._isNew && !item._isDeleted

/-- The `creates` request set of `saveTechBatch` (lines 2772-2781). -/
def saveTechCreates (draft : List TechDraftItem) : List TechCreatePayload :=
  (saveTechCreatesRows draft).map techCreatePayload

/-- The rows selected into `updates` by `saveTechBatch` (lines 2783-2795):
neither new nor deleted, present in the canonical map, and differing on a
tracked field.  (The inner `none` branch is unreachable after the
`canonicalMap.has` filter; the source reads the entry with a non-null
assertion.) -/
def saveTechUpdatesRows (canonical draft : List TechDraftItem) : List TechDraftItem :=
  (draft.filter fun item =>
      !item._isNew && !item._isDeleted && (canonicalMapGet canonical item._id).isSome).filter
    fun item =>
      match canonicalMapGet canonical item._id with
      | some orig => techFieldsDiffer item orig
      | none => false

/-- The `updates` request set of `saveTechBatch` (lines 2783-2804). -/
def saveTechUpdates (canonical draft : List TechDraftItem) : List TechUpdatePayload :=
  (saveTechUpdatesRows canonical draft).map techUpdatePayload

/-- The rows selected into `deletes` by `saveTechBatch` (lines 2806-2808):
`_isDeleted` and not `_isNew`. -/
def saveTechDeletesRows (draft : List TechDraftItem) : List TechDraftItem :=
  draft.filter fun item => item._isDeleted && !item._isNew

/-- The `deletes` request set of `saveTechBatch` (lines 2806-2808): the ids of
the deleted rows. -/
def saveTechDeletes (draft : List TechDraftItem) : List String :=
  (saveTechDeletesRows draft).map fun item => item._id

/-- A non-deleted row failing the required-field validation of
`saveTechBatch` (lines 2759-2768): blank (whitespace-only) name or category. -/
def techRowInvalid (item : TechDraftItem) : Bool :=
  jsTrim item.name == "" || jsTrim item.category == ""

/-- Outcome of one invocation of `saveTechBatch` up to the remote call:
either the early-return guard fires (`noop`), validation aborts with a toast
(`validationError`), or the three request sets are sent (`commit`). -/
inductive TechSaveOutcome where
  | noop
  | validationError (title description : String)
  | commit (creates : List TechCreatePayload) (updates : List TechUpdatePayload)
      (deletes : List String)
deriving DecidableEq

/-- `saveTechBatch` (`AdminWorkspaceShell.tsx` lines 2755-2812) up to the
remote call: the guard returns when the draft is null or reports no changes;
then every non-deleted row is validated in order, name before category,
aborting at the first violation; only then are the three request sets
computed and sent. -/
def saveTechBatchOutcome (canonicalTechItems : List TechDraftItem)
    (techDraftItems : Option (List TechDraftItem)) : TechSaveOutcome :=
  match techDraftItems with
  | none => .noop
  | some draft =>
    if !hasTechChanges canonicalTechItems (some draft) then .noop
    else
      match (draft.filter fun item => !item._isDeleted).find? techRowInvalid with
      | some bad =>
        if jsTrim bad.name == "" then
          .validationError "Validation error" "All technologies must have a name."
        else
          .validationError "Validation error" ("\"" ++ bad.name ++ "\" needs a category.")
      | none =>
        .commit (saveTechCreates draft) (saveTechUpdates canonicalTechItems draft)
          (saveTechDeletes draft)

/-- The draft batch state after `saveTechBatch` resolves
(lines 2810-2822): `setTechDraftItems(null)` runs only in the success branch
of the try block; the catch branch only raises a toast, leaving the draft as
it was.  `remoteOk` models whether the awaited `batchSaveTechnologies` call
succeeded. -/
def saveTechBatchDraftAfter (canonicalTechItems : List TechDraftItem)
    (techDraftItems : Option (List TechDraftItem)) (remoteOk : Bool) :
    Option (List TechDraftItem) :=
  match saveTechBatchOutcome canonicalTechItems techDraftItems with
  | .commit _ _ _ => if remoteOk then none else techDraftItems
  | _ => techDraftItems

/-!
Reorder commits (`AdminWorkspaceShell.tsx`): `saveProjectOrder` and
`saveExperienceLayout`.
-/

/-- `ReorderItem` (`AdminWorkspaceShell.tsx` lines 232-235). -/
structure ReorderItem where
  id : String
  order : Int
deriving DecidableEq

/-- The request payload of `saveProjectOrder` (lines 3227-3230):
`projectDraftOrderIds.map((id, index) => ({ id, order: index + 1 }))`. -/
def saveProjectOrderPayload (projectDraftOrderIds : List String) : List ReorderItem :=
  projectDraftOrderIds.enum.map fun p => { id := p.2, order := (p.1 : Int) + 1 }

/-- The request payload of `saveExperienceLayout` (lines 3185-3188), built the
same way from the ids of the effective experience sequence. -/
def saveExperienceLayoutPayload (effectiveExperienceIds : List String) : List ReorderItem :=
  effectiveExperienceIds.enum.map fun p => { id := p.2, order := (p.1 : Int) + 1 }

/-- The project draft-order state after `saveProjectOrder` resolves
(lines 3220-3250): the guard returns when there are no changes or the draft
is null; `setProjectDraftOrderIds(null)` runs only on success of the awaited
`reorderProjects` call; the catch branch only raises a toast. -/
def saveProjectOrderDraftAfter (projectDraftOrderIds : Option (List String))
    (canonicalProjectOrderIds : List String) (remoteOk : Bool) : Option (List String) :=
  match projectDraftOrderIds with
  | none => none
  | some ds =>
    if !hasProjectOrderChanges (some ds) canonicalProjectOrderIds then some ds
    else if remoteOk then none else some ds

/-- The experience draft state (order draft, current-role draft) after
`saveExperienceLayout` resolves (lines 3178-3211): the guard returns when
`hasExperienceChanges` is false; both sentinels are reset (`null` and
`undefined`) only on success of the awaited `reorderExperiences` call; the
catch branch only raises a toast. -/
def saveExperienceLayoutDraftAfter (experienceDraftOrderIds : Option (List String))
    (experienceDraftCurrentRoleId : Option (Option String))
    (canonicalExperienceOrderIds : List String)
    (canonicalCurrentExperienceId : Option String) (remoteOk : Bool) :
    Option (List String) × Option (Option String) :=
  if !(hasExperienceOrderChanges experienceDraftOrderIds canonicalExperienceOrderIds ||
       hasExperienceCurrentRoleChanges experienceDraftCurrentRoleId
         canonicalCurrentExperienceId) then
    (experienceDraftOrderIds, experienceDraftCurrentRoleId)
  else if remoteOk then (none, none)
  else (experienceDraftOrderIds, experienceDraftCurrentRoleId)

/-!
Helper lemmas about the ordering utilities.
-/

/-- The source's element-wise id comparison decides list equality. -/
theorem areSameIdOrder_iff (l r : List String) : areSameIdOrder l r = true ↔ l = r := by
  induction l generalizing r with
  | nil => cases r <;> simp [areSameIdOrder]
  | cons a as ih =>
    cases r with
    | nil => simp [areSameIdOrder]
    | cons b bs =>
      have h := ih bs
      simp only [areSameIdOrder, List.length_cons, List.zip_cons_cons, List.all_cons,
        Bool.and_eq_true, beq_iff_eq, List.all_eq_true] at h ⊢
      constructor
      · rintro ⟨hlen, hab, hall⟩
        have has : as = bs := h.mp ⟨by omega, hall⟩
        rw [hab, has]
      · intro heq
        injection heq with h1 h2
        subst h1
        subst h2
        exact ⟨rfl, rfl, (h.mpr rfl).2⟩

/-- A reconciled draft has exactly the canonical ids as its elements. -/
theorem mem_reconcileList {ds cs : List String} {x : String} :
    x ∈ reconcileList ds cs ↔ x ∈ cs := by
  show x ∈ (ds.filter fun id => decide (id ∈ cs)) ++
      (cs.filter fun id => decide (id ∉ ds.filter fun id => decide (id ∈ cs))) ↔ x ∈ cs
  constructor
  · intro hx
    rcases List.mem_append.mp hx with h | h
    · exact of_decide_eq_true (List.mem_filter.mp h).2
    · exact (List.mem_filter.mp h).1
  · intro h
    by_cases hx : x ∈ ds.filter fun id => decide (id ∈ cs)
    · exact List.mem_append.mpr (Or.inl hx)
    · exact List.mem_append.mpr (Or.inr (List.mem_filter.mpr ⟨h, decide_eq_true hx⟩))

/-- Reconciling a list that already holds exactly the canonical ids changes
nothing. -/
theorem reconcileList_of_same_elems (r C : List String) (hrc : ∀ x ∈ r, x ∈ C)
    (hcr : ∀ x ∈ C, x ∈ r) : reconcileList r C = r := by
  have h1 : r.filter (fun id => decide (id ∈ C)) = r :=
    List.filter_eq_self.mpr fun a ha => decide_eq_true (hrc a ha)
  show (r.filter fun id => decide (id ∈ C)) ++
      (C.filter fun id => decide (id ∉ r.filter fun id => decide (id ∈ C))) = r
  rw [h1]
  have h2 : C.filter (fun id => decide (id ∉ r)) = [] :=
    List.filter_eq_nil_iff.mpr fun a ha => by
      simp only [decide_eq_true_eq]
      exact fun hnot => hnot (hcr a ha)
  rw [h2, List.append_nil]

/-- C4: Reconciliation is idempotent — for every canonical id sequence `C` and
draft id sequence `D`, reconciling an already-reconciled draft returns it
unchanged: `reconcileDraftOrder (reconcileDraftOrder D C) C =
reconcileDraftOrder D C`. -/
theorem reconcileDraftOrder_idempotent (D : Option (List String)) (C : List String) :
    reconcileDraftOrder (reconcileDraftOrder D C) C = reconcileDraftOrder D C := by
  cases D with
  | none => rfl
  | some ds =>
    show some (reconcileList (reconcileList ds C) C) = some (reconcileList ds C)
    rw [reconcileList_of_same_elems (reconcileList ds C) C
      (fun x hx => mem_reconcileList.mp hx) (fun x hx => mem_reconcileList.mpr hx)]

/-- For duplicate-free draft and canonical sequences, the reconciled draft is
a permutation of the canonical sequence. -/
theorem reconcileList_perm (D C : List String) (hD : D.Nodup) (hC : C.Nodup) :
    (reconcileList D C).Perm C := by
  show ((D.filter fun id => decide (id ∈ C)) ++
      (C.filter fun id => decide (id ∉ D.filter fun id => decide (id ∈ C)))).Perm C
  generalize hfq : (D.filter fun id => decide (id ∈ C)) = f
  have hf : f.Nodup := hfq ▸ hD.filter _
  have hfC : ∀ x ∈ f, x ∈ C := by
    intro x hx
    rw [← hfq] at hx
    exact of_decide_eq_true (List.mem_filter.mp hx).2
  have hCf : (C.filter fun id => decide (id ∈ f)).Nodup := hC.filter _
  have hperm1 : f.Perm (C.filter fun id => decide (id ∈ f)) := by
    apply List.perm_of_nodup_nodup_toFinset_eq hf hCf
    ext x
    simp only [List.mem_toFinset, List.mem_filter, decide_eq_true_eq]
    exact ⟨fun hx => ⟨hfC x hx, hx⟩, fun hx => hx.2⟩
  have hfun : (fun id => decide (id ∉ f)) = fun id => !(decide (id ∈ f)) := by
    funext id
    by_cases h : id ∈ f <;> simp [h]
  have hperm2 :
      ((C.filter fun id => decide (id ∈ f)) ++ C.filter fun id => decide (id ∉ f)).Perm C := by
    rw [hfun]
    exact List.filter_append_perm _ C
  exact (hperm1.append_right _).trans hperm2

/-- C1 counterexample: with a draft containing a duplicated canonical id, the
reconciled draft keeps both copies (the `filteredSet` membership test never
sees the appended ids and the duplicate survives the filter), so the result
is not a permutation of the canonical ids — the id `"a"` occurs twice. -/
theorem reconcileDraftOrder_duplicate_cex :
    reconcileDraftOrder (some ["a", "a"]) ["a"] = some ["a", "a"] ∧
    ¬ (["a", "a"] : List String).Perm ["a"] := by
  refine ⟨by decide, fun h => ?_⟩
  simpa using h.length_eq

/-- C1 (amended): for every duplicate-free draft id sequence `D` (ids may
still be absent from canonical) and duplicate-free canonical id sequence `C`,
`reconcileDraftOrder (some D) C` returns a sequence containing exactly the
ids of `C`, each exactly once (a permutation of `C`). -/
theorem reconcileDraftOrder_perm_of_nodup (D C : List String) (hD : D.Nodup)
    (hC : C.Nodup) :
    ∃ r, reconcileDraftOrder (some D) C = some r ∧ r.Perm C :=
  ⟨reconcileList D C, rfl, reconcileList_perm D C hD hC⟩

/-- C1 witness: the permutation theorem applied to the concrete draft
`["b", "x", "a"]` (one stale id, one missing canonical id) and canonical
`["a", "b", "c"]`. -/
theorem reconcileDraftOrder_perm_of_nodup_witness :
    ∃ r, reconcileDraftOrder (some ["b", "x", "a"]) ["a", "b", "c"] = some r ∧
      r.Perm ["a", "b", "c"] :=
  reconcileDraftOrder_perm_of_nodup ["b", "x", "a"] ["a", "b", "c"]
    (by decide) (by decide)

/-- C5 counterexample: when the stored draft already equals the canonical
order element-wise, the reconciliation updater returns the stored draft
itself (the `current && areSameIdOrder(current, reconciled)` branch), not
`null` — the draft order is not collapsed even though `isSameIdOrder` of the
reconciled draft and canonical is true. -/
theorem setProjectDraftOrderIdsReconcile_keeps_draft_cex :
    areSameIdOrder (reconcileList ["a", "b"] ["a", "b"]) ["a", "b"] = true ∧
    setProjectDraftOrderIdsReconcile (some ["a", "b"]) ["a", "b"] = some ["a", "b"] ∧
    setProjectDraftOrderIdsReconcile (some ["a", "b"]) ["a", "b"] ≠ none := by
  refine ⟨by decide, by decide, by decide⟩

/-- C5 (amended): if the draft order reconciles to a sequence element-wise
equal to the canonical id order, the reconciliation updater stores either
`null` or (when the previous draft already equalled the reconciled order)
the previous draft, which then equals the canonical order itself; in both
cases the store reports no unsaved changes (`hasProjectOrderChanges` is
false). -/
theorem setProjectDraftOrderIdsReconcile_noop_clean (cur canonical r : List String)
    (hrec : reconcileDraftOrder (some cur) canonical = some r)
    (hsame : areSameIdOrder r canonical = true) :
    (setProjectDraftOrderIdsReconcile (some cur) canonical = none ∨
     setProjectDraftOrderIdsReconcile (some cur) canonical = some canonical) ∧
    hasProjectOrderChanges (setProjectDraftOrderIdsReconcile (some cur) canonical)
      canonical = false := by
  have hr : r = canonical := (areSameIdOrder_iff r canonical).mp hsame
  subst hr
  simp only [setProjectDraftOrderIdsReconcile, hrec]
  by_cases h : areSameIdOrder cur r = true
  · have hcur : cur = r := (areSameIdOrder_iff cur r).mp h
    subst hcur
    simp [h, hasProjectOrderChanges]
  · simp only [Bool.not_eq_true] at h
    simp [h, hsame, hasProjectOrderChanges]

/-- C5 witness: the amended theorem applied to the stale draft
`["x", "a", "b"]` against canonical `["a", "b"]`, whose reconciliation drops
`"x"` and yields exactly the canonical order. -/
theorem setProjectDraftOrderIdsReconcile_noop_clean_witness :
    (setProjectDraftOrderIdsReconcile (some ["x", "a", "b"]) ["a", "b"] = none ∨
     setProjectDraftOrderIdsReconcile (some ["x", "a", "b"]) ["a", "b"] = some ["a", "b"]) ∧
    hasProjectOrderChanges (setProjectDraftOrderIdsReconcile (some ["x", "a", "b"]) ["a", "b"])
      ["a", "b"] = false :=
  setProjectDraftOrderIdsReconcile_noop_clean ["x", "a", "b"] ["a", "b"] ["a", "b"]
    (by decide) (by decide)

/-!
Membership characterizations of the three commit sets of `saveTechBatch`.
-/

/-- A row is selected into `creates` exactly when it is new and not deleted. -/
theorem mem_saveTechCreatesRows {draft : List TechDraftItem} {item : TechDraftItem} :
    item ∈ saveTechCreatesRows draft ↔
      item ∈ draft ∧ item._isNew = true ∧ item._isDeleted = false := by
  simp [saveTechCreatesRows, List.mem_filter, Bool.and_eq_true, Bool.not_eq_true']

/-- A row is selected into `updates` exactly when it is neither new nor
deleted, has a canonical counterpart, and differs from it on a tracked
field. -/
theorem mem_saveTechUpdatesRows {canonical draft : List TechDraftItem}
    {item : TechDraftItem} :
    item ∈ saveTechUpdatesRows canonical draft ↔
      item ∈ draft ∧ item._isNew = false ∧ item._isDeleted = false ∧
      ∃ orig, canonicalMapGet canonical item._id = some orig ∧
        techFieldsDiffer item orig = true := by
  cases hlook : canonicalMapGet canonical item._id with
  | none =>
    simp [saveTechUpdatesRows, List.mem_filter, hlook]
  | some orig =>
    simp only [saveTechUpdatesRows, List.mem_filter, hlook, Bool.and_eq_true,
      Bool.not_eq_true', Option.isSome_some, Option.some.injEq]
    constructor
    · rintro ⟨⟨hmem, ⟨hnew, hdel⟩, -⟩, hdiff⟩
      exact ⟨hmem, hnew, hdel, orig, rfl, hdiff⟩
    · rintro ⟨hmem, hnew, hdel, orig2, rfl, hdiff⟩
      exact ⟨⟨hmem, ⟨hnew, hdel⟩, trivial⟩, hdiff⟩

/-- A row is selected into `deletes` exactly when it is deleted and not new. -/
theorem mem_saveTechDeletesRows {draft : List TechDraftItem} {item : TechDraftItem} :
    item ∈ saveTechDeletesRows draft ↔
      item ∈ draft ∧ item._isDeleted = true ∧ item._isNew = false := by
  simp [saveTechDeletesRows, List.mem_filter, Bool.and_eq_true, Bool.not_eq_true']

/-- C2: The technologies batch diff partitions the draft rows into three
pairwise-disjoint sets — `creates` holds exactly the rows with `_isNew` and
not `_isDeleted`; `updates` holds exactly the rows that are neither new nor
deleted and differ from their canonical counterpart on a tracked field (a
row with all tracked fields equal to canonical is in no set); `deletes`
holds exactly the rows with `_isDeleted` and not `_isNew`; and a tombstone
row with both flags set appears in none of the three sets. -/
theorem saveTechBatch_partition (canonical draft : List TechDraftItem)
    (item : TechDraftItem) :
    (item ∈ saveTechCreatesRows draft ↔
      item ∈ draft ∧ item._isNew = true ∧ item._isDeleted = false) ∧
    (item ∈ saveTechUpdatesRows canonical draft ↔
      item ∈ draft ∧ item._isNew = false ∧ item._isDeleted = false ∧
      ∃ orig, canonicalMapGet canonical item._id = some orig ∧
        techFieldsDiffer item orig = true) ∧
    (item ∈ saveTechDeletesRows draft ↔
      item ∈ draft ∧ item._isDeleted = true ∧ item._isNew = false) ∧
    (item._isNew = true → item._isDeleted = true →
      item ∉ saveTechCreatesRows draft ∧ item ∉ saveTechUpdatesRows canonical draft ∧
      item ∉ saveTechDeletesRows draft) := by
  refine ⟨mem_saveTechCreatesRows, mem_saveTechUpdatesRows, mem_saveTechDeletesRows, ?_⟩
  intro hn hd
  refine ⟨fun hmem => ?_, fun hmem => ?_, fun hmem => ?_⟩
  · exact absurd (mem_saveTechCreatesRows.mp hmem).2.2 (by simp [hd])
  · exact absurd (mem_saveTechUpdatesRows.mp hmem).2.1 (by simp [hn])
  · exact absurd (mem_saveTechDeletesRows.mp hmem).2.2 (by simp [hn])

/-- C2 witness: the partition theorem applied to a concrete tombstone row
(both `_isNew` and `_isDeleted`), which lands in none of the three sets. -/
theorem saveTechBatch_partition_witness :
    ({ _id := "t", name := "n", category := "c", description := "", iconName := "",
       iconUrl := "", order := 1, _isNew := true, _isDeleted := true } : TechDraftItem) ∉
      saveTechCreatesRows
        [{ _id := "t", name := "n", category := "c", description := "", iconName := "",
           iconUrl := "", order := 1, _isNew := true, _isDeleted := true }] ∧
    ({ _id := "t", name := "n", category := "c", description := "", iconName := "",
       iconUrl := "", order := 1, _isNew := true, _isDeleted := true } : TechDraftItem) ∉
      saveTechUpdatesRows []
        [{ _id := "t", name := "n", category := "c", description := "", iconName := "",
           iconUrl := "", order := 1, _isNew := true, _isDeleted := true }] ∧
    ({ _id := "t", name := "n", category := "c", description := "", iconName := "",
       iconUrl := "", order := 1, _isNew := true, _isDeleted := true } : TechDraftItem) ∉
      saveTechDeletesRows
        [{ _id := "t", name := "n", category := "c", description := "", iconName := "",
           iconUrl := "", order := 1, _isNew := true, _isDeleted := true }] :=
  (saveTechBatch_partition []
    [{ _id := "t", name := "n", category := "c", description := "", iconName := "",
       iconUrl := "", order := 1, _isNew := true, _isDeleted := true }]
    { _id := "t", name := "n", category := "c", description := "", iconName := "",
      iconUrl := "", order := 1, _isNew := true, _isDeleted := true }).2.2.2 rfl rfl

/-- C6: Batch-commit validation is all-or-nothing and precedes the remote
call — for a committing draft (non-null, with changes), if some non-deleted
row has a blank name or category, `saveTechBatch` aborts at the first such
row with that row's field-specific error (name checked before category),
never reaches the commit stage (so no create/update/delete diff is sent),
and leaves the draft batch unchanged whatever the remote would have
answered. -/
theorem saveTechBatch_validation_precedes_commit (canonical draft : List TechDraftItem)
    (bad : TechDraftItem)
    (hchanges : hasTechChanges canonical (some draft) = true)
    (hfind : (draft.filter fun item => !item._isDeleted).find? techRowInvalid = some bad) :
    saveTechBatchOutcome canonical (some draft) =
      (if jsTrim bad.name == "" then
        TechSaveOutcome.validationError "Validation error"
          "All technologies must have a name."
       else
        TechSaveOutcome.validationError "Validation error"
          ("\"" ++ bad.name ++ "\" needs a category.")) ∧
    (∀ remoteOk, saveTechBatchDraftAfter canonical (some draft) remoteOk = some draft) ∧
    (∀ creates updates deletes,
      saveTechBatchOutcome canonical (some draft) ≠
        TechSaveOutcome.commit creates updates deletes) := by
  have houtcome : saveTechBatchOutcome canonical (some draft) =
      (if jsTrim bad.name == "" then
        TechSaveOutcome.validationError "Validation error"
          "All technologies must have a name."
       else
        TechSaveOutcome.validationError "Validation error"
          ("\"" ++ bad.name ++ "\" needs a category.")) := by
    simp [saveTechBatchOutcome, hchanges, hfind]
  refine ⟨houtcome, fun remoteOk => ?_, fun creates updates deletes heq => ?_⟩
  · by_cases hc : (jsTrim bad.name == "") = true
    · simp [saveTechBatchDraftAfter, houtcome, hc]
    · simp [saveTechBatchDraftAfter, houtcome, hc]
  · rw [houtcome] at heq
    by_cases hc : (jsTrim bad.name == "") = true
    · rw [if_pos hc] at heq
      exact TechSaveOutcome.noConfusion heq
    · rw [if_neg hc] at heq
      exact TechSaveOutcome.noConfusion heq

/-- C6 witness: the validation theorem applied to a draft holding a single
new row with a blank name, which aborts with the name error and leaves the
draft in place. -/
theorem saveTechBatch_validation_precedes_commit_witness :
    saveTechBatchOutcome []
      (some [{ _id := "temp-1", name := "", category := "cat", description := "",
               iconName := "", iconUrl := "", order := 1, _isNew := true }]) =
      TechSaveOutcome.validationError "Validation error"
        "All technologies must have a name." ∧
    (∀ remoteOk, saveTechBatchDraftAfter []
      (some [{ _id := "temp-1", name := "", category := "cat", description := "",
               iconName := "", iconUrl := "", order := 1, _isNew := true }]) remoteOk =
      some [{ _id := "temp-1", name := "", category := "cat", description := "",
               iconName := "", iconUrl := "", order := 1, _isNew := true }]) ∧
    (∀ creates updates deletes,
      saveTechBatchOutcome []
        (some [{ _id := "temp-1", name := "", category := "cat", description := "",
                 iconName := "", iconUrl := "", order := 1, _isNew := true }]) ≠
        TechSaveOutcome.commit creates updates deletes) := by
  have h := saveTechBatch_validation_precedes_commit []
    [{ _id := "temp-1", name := "", category := "cat", description := "",
       iconName := "", iconUrl := "", order := 1, _isNew := true }]
    { _id := "temp-1", name := "", category := "cat", description := "",
      iconName := "", iconUrl := "", order := 1, _isNew := true }
    (by decide) (by decide)
  rw [if_pos (by decide)] at h
  exact h

/-- C10: a draft row that is neither new nor deleted but whose id is absent
from the canonical collection is excluded from all three commit sets, even
though `hasTechChanges` reports unsaved changes for that draft — the commit
sends no write for the orphaned row. -/
theorem saveTechBatch_orphan_excluded (canonical draft : List TechDraftItem)
    (item : TechDraftItem) (hmem : item ∈ draft)
    (hnew : item._isNew = false) (hdel : item._isDeleted = false)
    (horig : canonicalMapGet canonical item._id = none) :
    item ∉ saveTechCreatesRows draft ∧
    item ∉ saveTechUpdatesRows canonical draft ∧
    item ∉ saveTechDeletesRows draft ∧
    hasTechChanges canonical (some draft) = true := by
  refine ⟨fun h => ?_, fun h => ?_, fun h => ?_, ?_⟩
  · exact absurd (mem_saveTechCreatesRows.mp h).2.1 (by simp [hnew])
  · rcases (mem_saveTechUpdatesRows.mp h).2.2.2 with ⟨orig, horig2, -⟩
    rw [horig] at horig2
    exact Option.noConfusion horig2
  · exact absurd (mem_saveTechDeletesRows.mp h).2.1 (by simp [hdel])
  · have hany : (draft.any fun it =>
        !(it._isNew || it._isDeleted) &&
        (match canonicalMapGet canonical it._id with
         | none => true
         | some orig => techFieldsDiffer it orig)) = true := by
      rw [List.any_eq_true]
      exact ⟨item, hmem, by simp [hnew, hdel, horig]⟩
    simp only [hasTechChanges]
    rw [Bool.or_eq_true]
    exact Or.inr hany

/-- C10 witness: the orphan theorem applied to a draft holding a single
unmodified-looking row whose id is missing from an empty canonical
collection. -/
theorem saveTechBatch_orphan_excluded_witness :
    ({ _id := "x", name := "n", category := "c", description := "", iconName := "",
       iconUrl := "", order := 1 } : TechDraftItem) ∉
      saveTechCreatesRows
        [{ _id := "x", name := "n", category := "c", description := "", iconName := "",
           iconUrl := "", order := 1 }] ∧
    ({ _id := "x", name := "n", category := "c", description := "", iconName := "",
       iconUrl := "", order := 1 } : TechDraftItem) ∉
      saveTechUpdatesRows []
        [{ _id := "x", name := "n", category := "c", description := "", iconName := "",
           iconUrl := "", order := 1 }] ∧
    ({ _id := "x", name := "n", category := "c", description := "", iconName := "",
       iconUrl := "", order := 1 } : TechDraftItem) ∉
      saveTechDeletesRows
        [{ _id := "x", name := "n", category := "c", description := "", iconName := "",
           iconUrl := "", order := 1 }] ∧
    hasTechChanges []
      (some [{ _id := "x", name := "n", category := "c", description := "", iconName := "",
               iconUrl := "", order := 1 }]) = true :=
  saveTechBatch_orphan_excluded []
    [{ _id := "x", name := "n", category := "c", description := "", iconName := "",
       iconUrl := "", order := 1 }]
    { _id := "x", name := "n", category := "c", description := "", iconName := "",
      iconUrl := "", order := 1 }
    (by simp) rfl rfl rfl

/-- C3: Dense renumbering on commit — for every committed id sequence, both
`saveProjectOrder` and `saveExperienceLayout` build a request that assigns to
the entity at index `i` the order value `i + 1`, renumbering every entity
densely from 1 by its 1-based position, regardless of original order
values. -/
theorem reorderCommit_dense_renumbering (ids : List String) (i : Nat)
    (h : i < ids.length)
    (hp : i < (saveProjectOrderPayload ids).length)
    (he : i < (saveExperienceLayoutPayload ids).length) :
    (saveProjectOrderPayload ids).length = ids.length ∧
    (saveProjectOrderPayload ids)[i] = { id := ids[i], order := (i : Int) + 1 } ∧
    (saveExperienceLayoutPayload ids).length = ids.length ∧
    (saveExperienceLayoutPayload ids)[i] = { id := ids[i], order := (i : Int) + 1 } := by
  refine ⟨?_, ?_, ?_, ?_⟩
  · simp [saveProjectOrderPayload, List.enum_length]
  · simp [saveProjectOrderPayload, List.getElem_map, List.getElem_enum]
  · simp [saveExperienceLayoutPayload, List.enum_length]
  · simp [saveExperienceLayoutPayload, List.getElem_map, List.getElem_enum]

/-- C3 witness: the renumbering theorem applied to the spec's example order
`[b, a, c]` at index 1: the second entry of the request is `{id: a, order: 2}`. -/
theorem reorderCommit_dense_renumbering_witness :
    (saveProjectOrderPayload ["b", "a", "c"]).length = 3 ∧
    (saveProjectOrderPayload ["b", "a", "c"]).get ⟨1, by decide⟩ =
      { id := "a", order := 2 } ∧
    (saveExperienceLayoutPayload ["b", "a", "c"]).length = 3 ∧
    (saveExperienceLayoutPayload ["b", "a", "c"]).get ⟨1, by decide⟩ =
      { id := "a", order := 2 } :=
  reorderCommit_dense_renumbering ["b", "a", "c"] 1 (by decide) (by decide) (by decide)

/-- C7: Commit atomicity on failure — when the remote call of
`saveProjectOrder`, `saveTechBatch` or `saveExperienceLayout` fails, every
draft sentinel (project draft order, tech draft batch, experience draft
order and draft current-role flag) is left exactly as it was before the
commit; the success branch alone clears them. -/
theorem commitFailure_preserves_drafts (canonicalP : List String)
    (dP : Option (List String)) (canonicalT : List TechDraftItem)
    (dT : Option (List TechDraftItem)) (oD : Option (List String))
    (cD : Option (Option String)) (cIds : List String) (cCur : Option String)
    (remoteOk : Bool) (hfail : remoteOk = false) :
    saveProjectOrderDraftAfter dP canonicalP remoteOk = dP ∧
    saveTechBatchDraftAfter canonicalT dT remoteOk = dT ∧
    saveExperienceLayoutDraftAfter oD cD cIds cCur remoteOk = (oD, cD) ∧
    (∀ ok, saveProjectOrderDraftAfter dP canonicalP ok = none → dP = none ∨ ok = true) ∧
    (∀ ok, saveTechBatchDraftAfter canonicalT dT ok = none → dT = none ∨ ok = true) := by
  subst hfail
  refine ⟨?_, ?_, ?_, ?_, ?_⟩
  · cases dP with
    | none => rfl
    | some ds =>
      simp only [saveProjectOrderDraftAfter]
      cases h : hasProjectOrderChanges (some ds) canonicalP <;> simp [h]
  · simp only [saveTechBatchDraftAfter]
    cases saveTechBatchOutcome canonicalT dT <;> simp
  · simp only [saveExperienceLayoutDraftAfter]
    split <;> simp
  · intro ok hnone
    cases dP with
    | none => exact Or.inl rfl
    | some ds =>
      cases ok with
      | true => exact Or.inr rfl
      | false =>
        simp only [saveProjectOrderDraftAfter] at hnone
        cases h : hasProjectOrderChanges (some ds) canonicalP <;>
          simp [h] at hnone
  · intro ok hnone
    cases dT with
    | none => exact Or.inl rfl
    | some ds =>
      cases ok with
      | true => exact Or.inr rfl
      | false =>
        simp only [saveTechBatchDraftAfter] at hnone
        cases houtcome : saveTechBatchOutcome canonicalT (some ds) <;>
          simp [houtcome] at hnone

/-- C7 witness: the atomicity theorem applied to concrete dirty drafts for
all three collections with a failing remote call. -/
theorem commitFailure_preserves_drafts_witness :
    saveProjectOrderDraftAfter (some ["b", "a"]) ["a", "b"] false = some ["b", "a"] ∧
    saveTechBatchDraftAfter []
      (some [{ _id := "t", name := "n", category := "c", description := "",
               iconName := "", iconUrl := "", order := 1, _isNew := true }]) false =
      some [{ _id := "t", name := "n", category := "c", description := "",
              iconName := "", iconUrl := "", order := 1, _isNew := true }] ∧
    saveExperienceLayoutDraftAfter (some ["b", "a"]) (some (some "a")) ["a", "b"]
      none false = (some ["b", "a"], some (some "a")) ∧
    (∀ ok, saveProjectOrderDraftAfter (some ["b", "a"]) ["a", "b"] ok = none →
      (some ["b", "a"] : Option (List String)) = none ∨ ok = true) ∧
    (∀ ok, saveTechBatchDraftAfter []
      (some [{ _id := "t", name := "n", category := "c", description := "",
               iconName := "", iconUrl := "", order := 1, _isNew := true }]) ok = none →
      (some [{ _id := "t", name := "n", category := "c", description := "",
               iconName := "", iconUrl := "", order := 1,
               _isNew := true }] : Option (List TechDraftItem)) = none ∨ ok = true) :=
  commitFailure_preserves_drafts ["a", "b"] (some ["b", "a"]) []
    (some [{ _id := "t", name := "n", category := "c", description := "",
             iconName := "", iconUrl := "", order := 1, _isNew := true }])
    (some ["b", "a"]) (some (some "a")) ["a", "b"] none false rfl

/-!
Characterization of the two next-order computations.
-/

/-- For a non-negative accumulator the `ordering.ts` reducer step is the max
with the effective order value. -/
theorem getNextOrderStep_eq_max (m : Int) (hm : 0 ≤ m) (item : OrderedRecord) :
    getNextOrderStep m item = max m (effectiveOrder item.order) := by
  cases h : toNumber item.order with
  | num v =>
    simp only [getNextOrderStep, effectiveOrder, h]
    split <;> omega
  | nan => simp only [getNextOrderStep, effectiveOrder, h]; omega
  | posInf => simp only [getNextOrderStep, effectiveOrder, h]; omega
  | negInf => simp only [getNextOrderStep, effectiveOrder, h]; omega

/-- Folding the `ordering.ts` reducer from a non-negative seed agrees with
folding the effective-order max. -/
theorem foldl_getNextOrderStep_eq (items : List OrderedRecord) :
    ∀ m : Int, 0 ≤ m →
      items.foldl getNextOrderStep m =
      items.foldl (fun mx item => max mx (effectiveOrder item.order)) m := by
  induction items with
  | nil => intro m _; rfl
  | cons i is ih =>
    intro m hm
    simp only [List.foldl_cons]
    rw [getNextOrderStep_eq_max m hm i]
    exact ih _ (le_trans hm (le_max_left _ _))

/-- A max-fold commutes with taking the max of its seed. -/
theorem foldl_max_seed (items : List OrderedRecord) :
    ∀ a b : Int,
      items.foldl (fun mx item => max mx (effectiveOrder item.order)) (max a b) =
      max a (items.foldl (fun mx item => max mx (effectiveOrder item.order)) b) := by
  induction items with
  | nil => intro a b; rfl
  | cons i is ih =>
    intro a b
    simp only [List.foldl_cons]
    rw [max_assoc]
    exact ih a _

/-- C8 counterexample: for the single record with finite order `-5`, the
specified value `max(order over items) + 1` is `-4` (non-finite/missing
treated as `0` does not apply — the value is finite), but `ordering.ts`'s
`getNextOrder` returns `1`: its reduce starts the running max at `0` and
never lets it drop below. -/
theorem getNextOrder_negative_cex :
    getNextOrder [{ order := some (JsNum.num (-5)) }] = 1 ∧
    nextOrderSpec [{ order := some (JsNum.num (-5)) }] = -4 ∧
    (1 : Int) ≠ -4 := by
  refine ⟨by decide, by decide, by decide⟩

/-- C8 (amended): the shell's `getNextOrder` returns `1` for an empty
collection and `max(order over items) + 1` otherwise, with missing or
non-finite order values treated as `0` (so `nextOrder([{order:5},{order:2}])
= 6`); the `ordering.ts` `getNextOrder` instead clamps the maximum at `0`,
returning `max 1 (max(order over items) + 1)` — the two agree unless every
effective order value is negative. -/
theorem getNextOrder_characterization (items : List OrderedRecord) :
    shellGetNextOrder items = nextOrderSpec items ∧
    getNextOrder items = max 1 (nextOrderSpec items) := by
  constructor
  · cases items with
    | nil => rfl
    | cons i is => simp [shellGetNextOrder, nextOrderSpec]
  · cases items with
    | nil => rfl
    | cons i is =>
      simp only [getNextOrder, nextOrderSpec, List.map_cons, List.foldl_cons,
        List.foldl_map]
      rw [show getNextOrderStep 0 i = max 0 (effectiveOrder i.order) from
        getNextOrderStep_eq_max 0 le_rfl i]
      rw [foldl_getNextOrderStep_eq is (max 0 (effectiveOrder i.order))
        (le_max_left 0 _)]
      rw [foldl_max_seed is 0 (effectiveOrder i.order)]
      omega

/-!
Sortedness, permutation and stability of `ordering.ts`'s `sortByOrder`, and
the divergence of the shell's unguarded copy on non-finite order values.
-/

/-- The `ordering.ts` comparator is transitive. -/
theorem sortLe_trans (a b c : OrderedRecord)
    (hab : decide (effectiveOrder a.order ≤ effectiveOrder b.order) = true)
    (hbc : decide (effectiveOrder b.order ≤ effectiveOrder c.order) = true) :
    decide (effectiveOrder a.order ≤ effectiveOrder c.order) = true := by
  simp only [decide_eq_true_eq] at *
  omega

/-- The `ordering.ts` comparator is total. -/
theorem sortLe_total (a b : OrderedRecord) :
    (decide (effectiveOrder a.order ≤ effectiveOrder b.order) ||
     decide (effectiveOrder b.order ≤ effectiveOrder a.order)) = true := by
  simp only [Bool.or_eq_true, decide_eq_true_eq]
  omega

/-- C9 counterexample: the shell's local `sortByOrder` has no
`Number.isFinite` guard, so a record with order `Infinity` (effective key `0`
under the claimed treatment) is compared as infinite and sorted after a
record with order `5` — the output is not ascending in the effective key, so
non-finite order values are not treated as `0` by this implementation. -/
theorem shellSortByOrder_nonfinite_cex :
    shellSortByOrder [{ order := some JsNum.posInf, rest := "A" },
        { order := some (JsNum.num 5), rest := "B" }] =
      [{ order := some (JsNum.num 5), rest := "B" },
       { order := some JsNum.posInf, rest := "A" }] ∧
    effectiveOrder (some JsNum.posInf) = 0 ∧
    ¬ List.Pairwise (fun a b => effectiveOrder a.order ≤ effectiveOrder b.order)
      [({ order := some (JsNum.num 5), rest := "B" } : OrderedRecord),
       { order := some JsNum.posInf, rest := "A" }] := by
  refine ⟨?_, rfl, ?_⟩
  · simp [shellSortByOrder, List.mergeSort, shellCompareLe, jsSub, toNumber]
  · intro h
    have h5 := (List.pairwise_cons.mp h).1
      ({ order := some JsNum.posInf, rest := "A" } : OrderedRecord) (by simp)
    simp [effectiveOrder, toNumber] at h5

/-- C9 (amended): `ordering.ts`'s `sortByOrder` returns a permutation of its
input sorted ascending by the numeric order key with missing or non-finite
values treated as `0`, and the sort is stable — records with equal effective
keys keep their relative input order (the filter to any fixed key is
unchanged).  The shell's local copy omits the finiteness guard and violates
the non-finite treatment (see the counterexample). -/
theorem sortByOrder_sorted_stable (items : List OrderedRecord) :
    (sortByOrder items).Perm items ∧
    List.Pairwise (fun a b => effectiveOrder a.order ≤ effectiveOrder b.order)
      (sortByOrder items) ∧
    ∀ k : Int,
      (sortByOrder items).filter (fun x => decide (effectiveOrder x.order = k)) =
      items.filter (fun x => decide (effectiveOrder x.order = k)) := by
  simp only [sortByOrder]
  refine ⟨List.mergeSort_perm items _, ?_, ?_⟩
  · exact (List.sorted_mergeSort sortLe_trans sortLe_total items).imp
      fun hab => of_decide_eq_true hab
  · intro k
    have hpw : (items.filter fun x => decide (effectiveOrder x.order = k)).Pairwise
        (fun a b =>
          (fun a b => decide (effectiveOrder a.order ≤ effectiveOrder b.order)) a b =
            true) := by
      apply List.pairwise_of_forall_mem_list
      intro a ha b hb
      have hak := of_decide_eq_true (List.mem_filter.mp ha).2
      have hbk := of_decide_eq_true (List.mem_filter.mp hb).2
      exact decide_eq_true (by omega)
    have hsub :
        (items.filter fun x => decide (effectiveOrder x.order = k)).Sublist
          (items.mergeSort fun a b =>
            decide (effectiveOrder a.order ≤ effectiveOrder b.order)) :=
      List.sublist_mergeSort sortLe_trans sortLe_total hpw (List.filter_sublist items)
    have hself :
        ((items.filter fun x => decide (effectiveOrder x.order = k)).filter
          fun x => decide (effectiveOrder x.order = k)) =
          items.filter fun x => decide (effectiveOrder x.order = k) :=
      List.filter_eq_self.mpr fun a ha => (List.mem_filter.mp ha).2
    have hsub2 :
        (items.filter fun x => decide (effectiveOrder x.order = k)).Sublist
          ((items.mergeSort fun a b =>
            decide (effectiveOrder a.order ≤ effectiveOrder b.order)).filter
            fun x => decide (effectiveOrder x.order = k)) := by
      have hf := List.Sublist.filter (fun x => decide (effectiveOrder x.order = k)) hsub
      rwa [hself] at hf
    have hlen :
        (((items.mergeSort fun a b =>
            decide (effectiveOrder a.order ≤ effectiveOrder b.order)).filter
            fun x => decide (effectiveOrder x.order = k)).length) =
          (items.filter fun x => decide (effectiveOrder x.order = k)).length :=
      ((List.mergeSort_perm items _).filter _).length_eq
    exact (hsub2.eq_of_length hlen.symm).symm
